import Mathlib

/-
Verification of the dyshell command-interpretation engine.

The Go source (main program plus signal_unix.go) is shallowly embedded here:
command lines are lists of characters, Go `strings` helpers are translated to
Lean functions over `List Char`, the stateful pieces (history, path cache with
timer-driven eviction, customization settings) become explicit state passing,
and the external world (running a substituted command, scanning the search
path, the platform continue-signal) is a function parameter.
-/

set_option maxRecDepth 4000

namespace Dyshell

/-- ASCII whitespace recognizer, mirroring the whitespace class used by Go's
`strings.TrimSpace` and `strings.Fields` (restricted to the ASCII range,
which is all the engine's inputs use). -/
def isWS (c : Char) : Bool :=
  c = ' ' || c = '\t' || c = '\n' || c = '\x0b' || c = '\x0c' || c = '\r'

/-- Go `strings.TrimSpace`: drop whitespace from both ends. -/
def trimChars (s : List Char) : List Char :=
  ((s.dropWhile isWS).reverse.dropWhile isWS).reverse

/-- Go `strings.Index pat`: index of the first occurrence of `pat` in `s`,
`none` when absent (Go returns -1). -/
def strIndex (pat : List Char) : List Char → Option Nat
  | [] => if pat.isPrefixOf [] then some 0 else none
  | x :: tl =>
    if pat.isPrefixOf (x :: tl) then some 0
    else (strIndex pat tl).map (· + 1)

/-- Go `strings.Split s (String c)`: split on every occurrence of the
separator; always returns at least one (possibly empty) part. -/
def splitOnChar (c : Char) : List Char → List (List Char)
  | [] => [[]]
  | x :: xs =>
    if x = c then [] :: splitOnChar c xs
    else
      match splitOnChar c xs with
      | [] => [[x]]
      | p :: ps => (x :: p) :: ps

/-- Accumulator loop behind `fields`. -/
def fieldsAux : List Char → List Char → List (List Char)
  | [], acc => if acc.isEmpty then [] else [acc.reverse]
  | c :: cs, acc =>
    if isWS c then
      if acc.isEmpty then fieldsAux cs [] else acc.reverse :: fieldsAux cs []
    else fieldsAux cs (c :: acc)

/-- Go `strings.Fields`: whitespace-separated tokens, no empty tokens. -/
def fields (s : List Char) : List (List Char) := fieldsAux s []

/-- Go `strings.Join parts " "`. -/
def joinSpace : List (List Char) → List Char
  | [] => []
  | [x] => x
  | x :: xs => x ++ ' ' :: joinSpace xs

/-- Go `strings.TrimSuffix s (String c)`: remove one trailing `c` if present. -/
def trimSuffixChar (c : Char) (s : List Char) : List Char :=
  if s.getLast? = some c then s.dropLast else s

/-- Value of a decimal digit character. -/
def digitVal (c : Char) : Option Nat :=
  if '0' ≤ c ∧ c ≤ '9' then some (c.toNat - ('0').toNat) else none

/-- Digit-string accumulator for `atoi`. -/
def parseDigitsAux : List Char → Nat → Option Nat
  | [], acc => some acc
  | c :: cs, acc =>
    match digitVal c with
    | some d => parseDigitsAux cs (acc * 10 + d)
    | none => none

/-- A nonempty all-digit string, as a number. -/
def parseDigits : List Char → Option Nat
  | [] => none
  | s => parseDigitsAux s 0

/-- Go `strconv.Atoi`: optional sign, then at least one digit, nothing else
(machine-word overflow is not modelled; the engine only compares the result
against small bounds). -/
def atoi (s : List Char) : Option Int :=
  match s with
  | '+' :: rest => (parseDigits rest).map (fun n => (n : Int))
  | '-' :: rest => (parseDigits rest).map (fun n => -(n : Int))
  | _ => (parseDigits s).map (fun n => (n : Int))

/-! ## Command substitution (`substituteCommand`)

The Go loop repeatedly locates the first `$(`, the first following `)`,
runs the enclosed text through `/bin/sh -c`, and on success splices the
trimmed output over the marker span; on failure the line is left unchanged
and the loop starts over.  Running the enclosed command is abstracted as an
oracle `runCmd : List Char → Option (List Char)` (`none` models a non-nil
error from `exec.Command(...).Output()`).  The unbounded Go `for` loop is
modelled with explicit fuel: a `none` result means the loop has not
returned within the given number of iterations. -/

/-- The substitution marker `$(`. -/
def subMarker : List Char := ['$', '(']

/-- Outcome of one iteration of the `substituteCommand` loop: `done` for the
two `break` paths (no marker, or no closing parenthesis), `next` when the
loop body runs to the bottom and iterates again. -/
inductive SubstStep where
  | done (s : List Char)
  | next (s : List Char)
deriving DecidableEq

/-- One iteration of the `substituteCommand` loop body. -/
def substituteCommandStep (runCmd : List Char → Option (List Char))
    (cmdLine : List Char) : SubstStep :=
  match strIndex subMarker cmdLine with
  | none => .done cmdLine
  | some start =>
    match strIndex [')'] (cmdLine.drop start) with
    | none => .done cmdLine
    | some e =>
      let stop := start + e
      let subCmd := (cmdLine.drop (start + 2)).take (stop - (start + 2))
      match runCmd subCmd with
      | none => .next cmdLine
      | some out =>
        .next (cmdLine.take start ++ trimChars out ++ cmdLine.drop (stop + 1))

/-- `substituteCommand`, fuel-indexed: iterate the loop body at most `fuel`
times; `some` is the function's return value, `none` means the loop is still
running after `fuel` iterations. -/
def substituteCommandFuel (runCmd : List Char → Option (List Char)) :
    Nat → List Char → Option (List Char)
  | 0, _ => none
  | fuel + 1, s =>
    match substituteCommandStep runCmd s with
    | .done r => some r
    | .next s2 => substituteCommandFuel runCmd fuel s2

/-! ## The dispatcher (`handleCommand`) -/

/-- The builtin-name set installed by `init()`. -/
def builtins : List Char → Bool := fun s =>
  ((["echo", "exit", "type", "pwd", "cd", "whoami", "ls", "cat", "touch",
     "rm", "mkdir", "rmdir", "history", "clear", "alias", "unalias",
     "export", "unset", "jobs", "fg", "bg", "kill", "shell"]).map
    (fun t => t.data)).contains s

/-- The execution mode `handleCommand` routes a preprocessed line to.
`piped` carries the per-stage token lists the piped executor derives
(`strings.Fields(strings.TrimSpace(stage))` for each `|`-separated part);
`builtin`/`plain` carry the verb after alias substitution and its argument
vector; `background` carries the argument vector re-tokenized from the
`&`-stripped line; `redirected` carries the whole line, which the
redirected executor re-parses. -/
inductive Mode where
  | contLine
  | piped (stages : List (List (List Char)))
  | builtin (cmd : List Char) (args : List (List Char))
  | background (argv : List (List Char))
  | redirected (line : List Char)
  | plain (cmd : List Char) (args : List (List Char))
deriving DecidableEq

/-- The mode-selection logic of `handleCommand`, applied to the line after
command substitution and environment expansion (the empty-line check and the
history append happen before these and are modelled in `handleCommandM`).
In source order: the multiline-continuation check, the pipe check, the
space-split of the line, the single alias lookup on the leading token, the
builtin check, the trailing-`&` background check, the `>`/`<` redirection
check, and finally plain external execution. -/
def dispatch (al : List Char → Option (List Char)) (bi : List Char → Bool)
    (cmdLine : List Char) : Mode :=
  if cmdLine.getLast? = some '\\' then .contLine
  else if '|' ∈ cmdLine then
    .piped ((splitOnChar '|' cmdLine).map fun st => fields (trimChars st))
  else
    let args := splitOnChar ' ' cmdLine
    let cmd := args.headD []
    let args2 := match al cmd with
      | some a => a :: args.tail
      | none => args
    let cmd2 := args2.headD []
    if bi cmd2 then .builtin cmd2 args2.tail
    else if cmdLine.getLast? = some '&' then
      .background (fields (trimSuffixChar '&' cmdLine))
    else if '>' ∈ cmdLine ∨ '<' ∈ cmdLine then .redirected cmdLine
    else .plain cmd2 args2.tail

/-- The program a dispatched mode hands to its executor: the (post-alias)
verb for builtin/plain mode, `args[0]` of the re-tokenized line for
background mode, and `cmdArgs[0]` of the first stage for piped mode. -/
def effectiveProg : Mode → Option (List Char)
  | .builtin c _ => some c
  | .plain c _ => some c
  | .background argv => argv.head?
  | .piped stages => (stages.headD []).head?
  | _ => none

/-- Stage construction of `executePipedCommands`: for each `|`-separated
part, tokenize and read `cmdArgs[0]`.  The Go code indexes `cmdArgs[0]`
unconditionally; an empty token list makes that index out of range (a
run-time panic), modelled as `none`. -/
def buildPipeProgs (line : List Char) :
    Option (List (List Char × List (List Char))) :=
  (splitOnChar '|' line).mapM fun st =>
    match fields (trimChars st) with
    | [] => none
    | p :: as => some (p, as)

/-- Empty alias table. -/
def alNone : List Char → Option (List Char) := fun _ => none

/-- A two-entry alias table `a=b`, `b=c` (used to exercise the
non-recursive, leading-token-only substitution). -/
def alChain : List Char → Option (List Char) := fun s =>
  if s = ("a").data then some (("b").data)
  else if s = ("b").data then some (("c").data)
  else none

/-- A substitution oracle on which every substituted command fails. -/
def failRun : List Char → Option (List Char) := fun _ => none

/-! ## Redirected execution (`executeRedirectedCommand`) -/

/-- The parse of `executeRedirectedCommand`: the spawned argument vector and
the redirection wiring.  `outTarget = some t` means the file `t` is
created/truncated and connected as the process's standard output;
`inTarget = some t` means `t` is opened read-only and connected as standard
input (the Go code wires a stream only when the corresponding trimmed target
text is nonempty, mirrored by the emptiness guards). -/
structure RedirPlan where
  argv : List (List Char)
  outTarget : Option (List Char)
  inTarget : Option (List Char)
deriving DecidableEq

/-- The parsing logic of `executeRedirectedCommand`: locate `>` first; only
when it is absent anywhere locate `<`; tokenize the text before the operator
and trim the text after it. -/
def planRedirect (cmdLine : List Char) : RedirPlan :=
  match strIndex ['>'] cmdLine with
  | some i =>
    let t := trimChars (cmdLine.drop (i + 1))
    { argv := fields (trimChars (cmdLine.take i)),
      outTarget := if t = [] then none else some t,
      inTarget := none }
  | none =>
    match strIndex ['<'] cmdLine with
    | some i =>
      let t := trimChars (cmdLine.drop (i + 1))
      { argv := fields (trimChars (cmdLine.take i)),
        outTarget := none,
        inTarget := if t = [] then none else some t }
    | none => { argv := fields cmdLine, outTarget := none, inTarget := none }

/-! ## The `bg` builtin -/

/-- The placeholder `sendSignalContinue` of the main file (the Windows
variant): the continue signal is unsupported and the call always fails with
this fixed error text.  On Unix (signal_unix.go) the primitive instead
delivers SIGCONT to the looked-up job's process and returns its error. -/
def sendSignalContinueWin : Option (List Char) :=
  some (("SIGCONT not supported on Windows").data)

/-- The `bg` case of `executeBuiltinCommand`.  `sigCont` abstracts the
platform primitive `sendSignalContinue` (`none` = signal delivered,
`some e` = it failed with error text `e`).  The result is the list of output
lines written, paired with the 1-based index of the job whose process the
continue-signal primitive was invoked for (`none` when no signal attempt is
made).  With no argument at all the Go code does nothing. -/
def bgBuiltin (sigCont : Option (List Char)) (numJobs : Nat)
    (args : List (List Char)) : List (List Char) × Option Nat :=
  match args with
  | [] => ([], none)
  | a :: _ =>
    match atoi a with
    | some n =>
      if 0 < n ∧ n ≤ (numJobs : Int) then
        match sigCont with
        | none => ([], some n.toNat)
        | some e =>
          ([("Failed to send continue signal: ").data ++ e], some n.toNat)
      else (([("bg: ").data ++ a ++ (": no such job").data], none))
    | none => (([("bg: ").data ++ a ++ (": no such job").data], none))

/-! ## The path cache (`cacheCommandPath` / `getCachedCommandPath`)

`cacheCommandPath` stores `name → path` under the mutex and arms a
`time.AfterFunc` that deletes the key `cacheExpiration` (5 minutes) after
the insertion.  The mutable map plus its pending timers are modelled by the
chronological list of insertions: an entry is visible at time `t` exactly
when it is the latest insertion for its name at or before `t` and no timer
armed by any insertion of that name has fired after that insertion and by
`t` (each insertion's timer fires exactly `cacheTTL` after it and deletes
whatever the key then holds). -/

/-- `cacheExpiration`, in seconds (5 * time.Minute). -/
def cacheTTL : Nat := 300

/-- One call to `cacheCommandPath`: the arguments and the time it ran. -/
structure CacheIns where
  name : List Char
  path : List Char
  time : Nat
deriving DecidableEq

/-- The insertions of `n` made at or before time `t`. -/
def cacheEntriesFor (ins : List CacheIns) (n : List Char) (t : Nat) :
    List CacheIns :=
  ins.filter (fun e => decide (e.name = n) && decide (e.time ≤ t))

/-- `getCachedCommandPath n` at time `t`: the path of the latest insertion
of `n`, unless some timer for `n` has deleted it — i.e. unless some
insertion of `n` has `time + cacheTTL` in the half-open window between the
latest insertion and `t`. -/
def visibleAt (ins : List CacheIns) (n : List Char) (t : Nat) :
    Option (List Char) :=
  match (cacheEntriesFor ins n t).getLast? with
  | none => none
  | some e =>
    if ∀ e2 ∈ cacheEntriesFor ins n t,
        t < e2.time + cacheTTL ∨ e2.time + cacheTTL ≤ e.time
    then some e.path else none

/-- The plain-external resolution step of `handleCommand`: consult
`getCachedCommandPath`; on a miss run the full search-path scan (`scan`,
abstracting the PATH loop with its `os.Stat` probes) and on success insert
the resolved path via `cacheCommandPath`.  Returns the resolved path (or
`none` for "command not found") and the updated insertion history. -/
def resolveCommand (scan : List Char → Option (List Char))
    (ins : List CacheIns) (n : List Char) (t : Nat) :
    Option (List Char) × List CacheIns :=
  match visibleAt ins n t with
  | some p => (some p, ins)
  | none =>
    match scan n with
    | some p => (some p, ins ++ [⟨n, p, t⟩])
    | none => (none, ins)

/-- The reachable-state invariant of the insertion history: two insertions
of the same name are at least `cacheTTL` apart (an insertion happens only on
a cache miss, and a miss can only occur once the previous entry's own timer
has fired). -/
def cacheWF (ins : List CacheIns) : Prop :=
  List.Pairwise (fun e1 e2 => e1.name = e2.name → e1.time + cacheTTL ≤ e2.time) ins

/-! ## Shell customization (`handleShellCustomization`) -/

/-- The five customization settings, with their `init()` defaults in
`defaultCustomization`. -/
structure Customization where
  bgOpacity : Int
  textSize : Int
  textColor : List Char
  textBold : Bool
  promptStyle : List Char
deriving DecidableEq

/-- The defaults installed by `init()`. -/
def defaultCustomization : Customization :=
  { bgOpacity := 100, textSize := 12, textColor := ("white").data,
    textBold := false, promptStyle := ("default").data }

/-- `handleShellCustomization`: with fewer than two arguments print usage;
otherwise join the value words with single spaces and update the option,
validating integer ranges and boolean literals.  Returns the new settings
and the output lines. -/
def handleShellCustomization (args : List (List Char)) (c : Customization) :
    Customization × List (List Char) :=
  match args with
  | [] => (c, [("Usage: shell [option] [value]").data])
  | [_] => (c, [("Usage: shell [option] [value]").data])
  | opt :: rest =>
    let value := joinSpace rest
    if opt = ("bg-opacity").data then
      match atoi value with
      | some v =>
        if 0 ≤ v ∧ v ≤ 100 then
          ({ c with bgOpacity := v },
           [("Background opacity set to ").data ++ (Nat.repr v.toNat).data
              ++ ("%").data])
        else
          (c, [("Invalid opacity value. Please enter a value between 0 and 100.").data])
      | none =>
        (c, [("Invalid opacity value. Please enter a value between 0 and 100.").data])
    else if opt = ("text-size").data then
      match atoi value with
      | some v =>
        if 0 < v then
          ({ c with textSize := v },
           [("Text size set to ").data ++ (Nat.repr v.toNat).data])
        else (c, [("Invalid text size. Please enter a positive integer.").data])
      | none => (c, [("Invalid text size. Please enter a positive integer.").data])
    else if opt = ("text-color").data then
      ({ c with textColor := value }, [("Text color set to ").data ++ value])
    else if opt = ("text-bold").data then
      if value = ("true").data then
        ({ c with textBold := true }, [("Text bold set to true").data])
      else if value = ("false").data then
        ({ c with textBold := false }, [("Text bold set to false").data])
      else (c, [("Invalid value for text-bold. Use true or false.").data])
    else if opt = ("prompt-style").data then
      ({ c with promptStyle := value }, [("Prompt style set to ").data ++ value])
    else (c, [("Unknown customization option.").data])

/-! ## History and the submission flow (`handleCommand` entry) -/

/-- The front of `handleCommand`: trim the submitted line; an empty line is
a no-op; otherwise append the (trimmed, pre-substitution) line to history,
run command substitution, expand environment variables (`expandEnv`
abstracts `os.ExpandEnv`) and select the execution mode.  Returns the new
history and the selected mode (`none` when no mode is reached: empty line,
or command substitution still looping after `fuel` iterations). -/
def handleCommandM (runCmd : List Char → Option (List Char)) (fuel : Nat)
    (expandEnv : List Char → List Char)
    (al : List Char → Option (List Char)) (bi : List Char → Bool)
    (hist : List (List Char)) (raw : List Char) :
    List (List Char) × Option Mode :=
  let line := trimChars raw
  if line = [] then (hist, none)
  else
    let hist2 := hist ++ [line]
    match substituteCommandFuel runCmd fuel line with
    | none => (hist2, none)
    | some l2 => (hist2, some (dispatch al bi (expandEnv l2)))

/-- The `history` builtin's output: one line per entry, `"<i+1> <entry>"`. -/
def historyLines (hist : List (List Char)) : List (List Char) :=
  hist.enum.map fun p => (Nat.repr (p.1 + 1)).data ++ ' ' :: p.2

/-- A search-path scan that resolves nothing. -/
def scanNone : List Char → Option (List Char) := fun _ => none

/-- The output of plain-external resolution: silent on success (the command
itself then runs), `"<cmd>: command not found"` when neither the cache nor
the scan resolves the name. -/
def plainModeOutput (scan : List Char → Option (List Char))
    (ins : List CacheIns) (cmd : List Char) (t : Nat) : List (List Char) :=
  match (resolveCommand scan ins cmd t).1 with
  | some _ => []
  | none => [cmd ++ (": command not found").data]

/-! ## Helper lemmas -/

theorem splitOnChar_append (c : Char) (a rest : List Char) (h : c ∉ a) :
    splitOnChar c (a ++ c :: rest) = a :: splitOnChar c rest := by
  induction a with
  | nil => simp [splitOnChar]
  | cons x xs ih =>
    have hx : ¬ x = c := fun hc => h (hc ▸ List.mem_cons_self x xs)
    have hxs : c ∉ xs := fun hc => h (List.mem_cons_of_mem x hc)
    simp only [List.cons_append, splitOnChar, if_neg hx, List.append_eq, ih hxs]

/-! ## Claim theorems -/

/-- C1: the claim says a failing substituted command leaves the marker in
place and `substituteCommand` still returns.  In the code the failure branch
leaves `cmdLine` unchanged, so the loop finds the same `$(` marker again and
re-runs the same failing command forever: on the line `echo $(false)` with
an always-failing oracle, no amount of loop iterations ever returns. -/
theorem substitute_failing_never_returns :
    ∀ fuel : Nat,
      substituteCommandFuel failRun fuel (("echo $(false)").data) = none := by
  intro fuel
  induction fuel with
  | zero => rfl
  | succ n ih =>
    have hstep : substituteCommandStep failRun (("echo $(false)").data) =
        SubstStep.next (("echo $(false)").data) := by decide
    simp only [substituteCommandFuel, hstep]
    exact ih

/-- C2: a preprocessed, trimmed, non-empty line containing `|` anywhere is
dispatched to piped mode, whatever the alias table, builtin set, trailing
`&`, or `>`/`<` content of the line; the stages are the whitespace-tokenized
`|`-separated parts, so `>`/`<` (and a trailing `&`) survive as literal
stage arguments. -/
theorem pipe_mode_precedence :
    ∀ (al : List Char → Option (List Char)) (bi : List Char → Bool)
      (line : List Char),
      trimChars line ≠ [] → line.getLast? ≠ some '\\' → '|' ∈ line →
      dispatch al bi line =
        .piped ((splitOnChar '|' line).map fun st => fields (trimChars st)) := by
  intro al bi line _ h1 h2
  unfold dispatch
  rw [if_neg h1, if_pos h2]

/-- Witness for C2: a line containing `<`, `|`, `>` and a trailing `&` is
executed purely as a pipeline, with the `<`, `>` and `&` tokens passed
through as literal stage arguments. -/
theorem pipe_mode_precedence_w :
    dispatch alNone builtins (("cat < in | sort > out &").data) =
      .piped [[("cat").data, ("<").data, ("in").data],
              [("sort").data, (">").data, ("out").data, ("&").data]] := by
  have h := pipe_mode_precedence alNone builtins
      (("cat < in | sort > out &").data) (by decide) (by decide) (by decide)
  exact h.trans (by decide)

/-- C3 counterexample: with aliases `a=b` (and `b=c`) defined, dispatching
the line `a x &` — an instance of "a line `a x`" — selects background mode,
which re-tokenizes the original line and so executes `a x`, not `b x`: the
alias substitution does not happen before every mode classification. -/
theorem alias_skipped_in_background_cex :
    dispatch alChain builtins (("a x &").data) =
      .background [("a").data, ("x").data] ∧
    effectiveProg (dispatch alChain builtins (("a x &").data)) =
      some (("a").data) ∧
    some (("a").data) ≠ some (("b").data) := by decide

/-- C3 amended: for an alias `a=b` and a line `a x` whose text contains no
pipe and no redirection operator and does not end in `&` or `\`, the
effective command is `b x`: the replacement is applied exactly once, to the
leading token only, and is not re-expanded (the conclusion uses `b` even
when `al b` is itself defined), with the line then classified as builtin or
plain external on the substituted verb. -/
theorem alias_leading_token_once :
    ∀ (al : List Char → Option (List Char)) (bi : List Char → Bool)
      (a b rest : List Char),
      al a = some b →
      ' ' ∉ a → '|' ∉ a → '|' ∉ rest → '>' ∉ a → '>' ∉ rest →
      '<' ∉ a → '<' ∉ rest →
      (a ++ ' ' :: rest).getLast? ≠ some '\\' →
      (a ++ ' ' :: rest).getLast? ≠ some '&' →
      dispatch al bi (a ++ ' ' :: rest) =
        if bi b then .builtin b (splitOnChar ' ' rest)
        else .plain b (splitOnChar ' ' rest) := by
  intro al bi a b rest hal hsp hpa hpr hga hgr hla hlr hbs hamp
  have hsplit : splitOnChar ' ' (a ++ ' ' :: rest) =
      a :: splitOnChar ' ' rest := splitOnChar_append ' ' a rest hsp
  have hpipe : ¬ '|' ∈ a ++ ' ' :: rest := by
    intro hmem
    rcases List.mem_append.1 hmem with h | h
    · exact hpa h
    · rcases List.mem_cons.1 h with h | h
      · exact absurd h (by decide)
      · exact hpr h
  have hred : ¬ ('>' ∈ a ++ ' ' :: rest ∨ '<' ∈ a ++ ' ' :: rest) := by
    rintro (hmem | hmem) <;> rcases List.mem_append.1 hmem with h | h
    · exact hga h
    · rcases List.mem_cons.1 h with h | h
      · exact absurd h (by decide)
      · exact hgr h
    · exact hla h
    · rcases List.mem_cons.1 h with h | h
      · exact absurd h (by decide)
      · exact hlr h
  simp only [dispatch, if_neg hbs, if_neg hpipe, if_neg hamp, if_neg hred,
    hsplit, List.headD_cons, hal, List.tail_cons]

/-- Witness for C3 (amended): with aliases `a=b` and `b=c`, the line `a x`
runs `b x` — substituted once, not re-expanded to `c x`. -/
theorem alias_leading_token_once_w :
    dispatch alChain builtins (("a x").data) =
      .plain (("b").data) [("x").data] := by
  have h := alias_leading_token_once alChain builtins (("a").data) (("b").data)
      (("x").data) (by decide) (by decide) (by decide) (by decide) (by decide)
      (by decide) (by decide) (by decide) (by decide) (by decide)
  exact h.trans (by decide)

/-- C5: `bg N` with `N` parsing as an integer in `1 ≤ N ≤ number of jobs`
invokes the platform continue-signal primitive for job `N` (reporting the
primitive's error text — on platforms without the signal, its fixed
"not supported" error); any other argument prints `bg: N: no such job` and
makes no signal attempt. -/
theorem bg_job_index_validation :
    ∀ (sigCont : Option (List Char)) (numJobs : Nat) (a : List Char)
      (rest : List (List Char)),
      (∀ n : Int, atoi a = some n → 0 < n → n ≤ (numJobs : Int) →
        bgBuiltin sigCont numJobs (a :: rest) =
          ((match sigCont with
            | none => []
            | some e => [("Failed to send continue signal: ").data ++ e]),
           some n.toNat)) ∧
      (∀ n : Int, atoi a = some n → ¬(0 < n ∧ n ≤ (numJobs : Int)) →
        bgBuiltin sigCont numJobs (a :: rest) =
          ([("bg: ").data ++ a ++ (": no such job").data], none)) ∧
      (atoi a = none →
        bgBuiltin sigCont numJobs (a :: rest) =
          ([("bg: ").data ++ a ++ (": no such job").data], none)) := by
  intro sigCont numJobs a rest
  refine ⟨?_, ?_, ?_⟩
  · intro n h h1 h2
    simp only [bgBuiltin, h, if_pos (And.intro h1 h2)]
    cases sigCont <;> rfl
  · intro n h hn
    simp only [bgBuiltin, h, if_neg hn]
  · intro h
    simp only [bgBuiltin, h]

/-- Witness for C5: with two tracked jobs and the Windows placeholder
primitive, `bg 1` reports the fixed "not supported" error (signal attempt
made for job 1), while `bg 5` and `bg xy` print "no such job" and make no
signal attempt. -/
theorem bg_job_index_validation_w :
    bgBuiltin sendSignalContinueWin 2 [("1").data] =
      ([("Failed to send continue signal: SIGCONT not supported on Windows").data],
       some 1) ∧
    bgBuiltin sendSignalContinueWin 2 [("5").data] =
      ([("bg: 5: no such job").data], none) ∧
    bgBuiltin sendSignalContinueWin 2 [("xy").data] =
      ([("bg: xy: no such job").data], none) := by
  refine ⟨?_, ?_, ?_⟩
  · have h := (bg_job_index_validation sendSignalContinueWin 2 (("1").data) []).1
      1 (by decide) (by decide) (by decide)
    exact h.trans (by decide)
  · have h := (bg_job_index_validation sendSignalContinueWin 2 (("5").data) []).2.1
      5 (by decide) (by decide)
    exact h.trans (by decide)
  · have h := (bg_job_index_validation sendSignalContinueWin 2 (("xy").data) []).2.2
      (by decide)
    exact h.trans (by decide)

/-- C6: the line `ls |` is dispatched to piped mode with an empty second
stage, and the stage construction of the piped executor — which indexes
`cmdArgs[0]` unconditionally — hits an out-of-range index on that stage:
the empty-stage input is not guarded against. -/
theorem piped_empty_stage_reaches_oob :
    dispatch alNone builtins (("ls |").data) = .piped [[("ls").data], []] ∧
    buildPipeProgs (("ls |").data) = none := by decide

/-- C7: redirected execution recognizes at most one operator: if `>` occurs
(first occurrence at `i`), the output branch is taken — argv is the
whitespace-tokenized text before `i`, the trimmed text after `i` is the file
to create/truncate and connect as standard output, and no input redirection
is set up; only if `>` is absent anywhere and `<` occurs is the input branch
taken, opening the trimmed target read-only as standard input with no
output redirection. -/
theorem redirect_branches :
    ∀ (line : List Char) (i : Nat),
      (strIndex ['>'] line = some i → trimChars (line.drop (i + 1)) ≠ [] →
        planRedirect line =
          { argv := fields (trimChars (line.take i)),
            outTarget := some (trimChars (line.drop (i + 1))),
            inTarget := none }) ∧
      (strIndex ['>'] line = none → strIndex ['<'] line = some i →
        trimChars (line.drop (i + 1)) ≠ [] →
        planRedirect line =
          { argv := fields (trimChars (line.take i)),
            outTarget := none,
            inTarget := some (trimChars (line.drop (i + 1))) }) := by
  intro line i
  constructor
  · intro h ht
    simp only [planRedirect, h, if_neg ht]
  · intro h hlt ht
    simp only [planRedirect, h, hlt, if_neg ht]

/-- Witness for C7: on `cat < in > out` the `>` wins even though it comes
after the `<`; the `<` and `in` survive as literal argv tokens and `out`
becomes the standard-output file. -/
theorem redirect_branches_w :
    planRedirect (("cat < in > out").data) =
      { argv := [("cat").data, ("<").data, ("in").data],
        outTarget := some (("out").data), inTarget := none } := by
  have h := (redirect_branches (("cat < in > out").data) 9).1
      (by decide) (by decide)
  exact h.trans (by decide)

/-- C9: `shell <option> <value...>` validates numeric ranges and boolean
literals — `bg-opacity` must parse as an integer in 0–100, `text-size` as a
positive integer, `text-bold` as `true`/`false`; an invalid value produces
an error line and leaves the targeted setting (and every other setting)
unchanged, a valid one updates exactly the targeted field; `text-color` and
`prompt-style` update exactly their field; an unknown option or a missing
value changes nothing. -/
theorem shell_customization_validates :
    (∀ (c : Customization) (v1 : List Char) (vs : List (List Char)) (v : Int),
      atoi (joinSpace (v1 :: vs)) = some v → 0 ≤ v → v ≤ 100 →
      handleShellCustomization (("bg-opacity").data :: v1 :: vs) c =
        ({ c with bgOpacity := v },
         [("Background opacity set to ").data ++ (Nat.repr v.toNat).data
            ++ ("%").data])) ∧
    (∀ (c : Customization) (v1 : List Char) (vs : List (List Char)),
      (∀ v : Int, atoi (joinSpace (v1 :: vs)) = some v → ¬(0 ≤ v ∧ v ≤ 100)) →
      handleShellCustomization (("bg-opacity").data :: v1 :: vs) c =
        (c, [("Invalid opacity value. Please enter a value between 0 and 100.").data])) ∧
    (∀ (c : Customization) (v1 : List Char) (vs : List (List Char)) (v : Int),
      atoi (joinSpace (v1 :: vs)) = some v → 0 < v →
      handleShellCustomization (("text-size").data :: v1 :: vs) c =
        ({ c with textSize := v },
         [("Text size set to ").data ++ (Nat.repr v.toNat).data])) ∧
    (∀ (c : Customization) (v1 : List Char) (vs : List (List Char)),
      (∀ v : Int, atoi (joinSpace (v1 :: vs)) = some v → ¬ 0 < v) →
      handleShellCustomization (("text-size").data :: v1 :: vs) c =
        (c, [("Invalid text size. Please enter a positive integer.").data])) ∧
    (∀ (c : Customization) (v1 : List Char) (vs : List (List Char)),
      joinSpace (v1 :: vs) = ("true").data →
      handleShellCustomization (("text-bold").data :: v1 :: vs) c =
        ({ c with textBold := true }, [("Text bold set to true").data])) ∧
    (∀ (c : Customization) (v1 : List Char) (vs : List (List Char)),
      joinSpace (v1 :: vs) = ("false").data →
      handleShellCustomization (("text-bold").data :: v1 :: vs) c =
        ({ c with textBold := false }, [("Text bold set to false").data])) ∧
    (∀ (c : Customization) (v1 : List Char) (vs : List (List Char)),
      joinSpace (v1 :: vs) ≠ ("true").data →
      joinSpace (v1 :: vs) ≠ ("false").data →
      handleShellCustomization (("text-bold").data :: v1 :: vs) c =
        (c, [("Invalid value for text-bold. Use true or false.").data])) ∧
    (∀ (c : Customization) (v1 : List Char) (vs : List (List Char)),
      handleShellCustomization (("text-color").data :: v1 :: vs) c =
        ({ c with textColor := joinSpace (v1 :: vs) },
         [("Text color set to ").data ++ joinSpace (v1 :: vs)])) ∧
    (∀ (c : Customization) (v1 : List Char) (vs : List (List Char)),
      handleShellCustomization (("prompt-style").data :: v1 :: vs) c =
        ({ c with promptStyle := joinSpace (v1 :: vs) },
         [("Prompt style set to ").data ++ joinSpace (v1 :: vs)])) ∧
    (∀ (c : Customization) (opt v1 : List Char) (vs : List (List Char)),
      opt ≠ ("bg-opacity").data → opt ≠ ("text-size").data →
      opt ≠ ("text-color").data → opt ≠ ("text-bold").data →
      opt ≠ ("prompt-style").data →
      handleShellCustomization (opt :: v1 :: vs) c =
        (c, [("Unknown customization option.").data])) ∧
    (∀ (c : Customization) (x : List Char),
      handleShellCustomization [] c =
        (c, [("Usage: shell [option] [value]").data]) ∧
      handleShellCustomization [x] c =
        (c, [("Usage: shell [option] [value]").data])) := by
  refine ⟨?_, ?_, ?_, ?_, ?_, ?_, ?_, ?_, ?_, ?_, ?_⟩
  · intro c v1 vs v hv h0 h100
    simp only [handleShellCustomization, hv, if_pos (And.intro h0 h100), if_pos rfl, if_true]
  · intro c v1 vs hv
    simp only [handleShellCustomization, if_pos rfl, if_true, if_true]
    cases hv2 : atoi (joinSpace (v1 :: vs)) with
    | none => rfl
    | some v => simp only [if_neg (hv v hv2)]
  · intro c v1 vs v hv h0
    simp only [handleShellCustomization, hv, if_pos h0, if_pos rfl, if_true,
      if_neg (by decide : ¬ ("text-size").data = ("bg-opacity").data)]
  · intro c v1 vs hv
    simp only [handleShellCustomization, if_pos rfl, if_true,
      if_neg (by decide : ¬ ("text-size").data = ("bg-opacity").data)]
    cases hv2 : atoi (joinSpace (v1 :: vs)) with
    | none => rfl
    | some v => simp only [if_neg (hv v hv2)]
  · intro c v1 vs hv
    simp only [handleShellCustomization, hv, if_pos rfl, if_true,
      if_neg (by decide : ¬ ("text-bold").data = ("bg-opacity").data),
      if_neg (by decide : ¬ ("text-bold").data = ("text-size").data),
      if_neg (by decide : ¬ ("text-bold").data = ("text-color").data)]
  · intro c v1 vs hv
    simp only [handleShellCustomization, hv, if_pos rfl, if_true,
      if_neg (by decide : ¬ ("text-bold").data = ("bg-opacity").data),
      if_neg (by decide : ¬ ("text-bold").data = ("text-size").data),
      if_neg (by decide : ¬ ("text-bold").data = ("text-color").data),
      if_neg (by decide : ¬ ("false").data = ("true").data)]
  · intro c v1 vs h1 h2
    simp only [handleShellCustomization, if_pos rfl, if_true,
      if_neg (by decide : ¬ ("text-bold").data = ("bg-opacity").data),
      if_neg (by decide : ¬ ("text-bold").data = ("text-size").data),
      if_neg (by decide : ¬ ("text-bold").data = ("text-color").data),
      if_neg h1, if_neg h2]
  · intro c v1 vs
    simp only [handleShellCustomization, if_pos rfl, if_true,
      if_neg (by decide : ¬ ("text-color").data = ("bg-opacity").data),
      if_neg (by decide : ¬ ("text-color").data = ("text-size").data)]
  · intro c v1 vs
    simp only [handleShellCustomization, if_pos rfl, if_true,
      if_neg (by decide : ¬ ("prompt-style").data = ("bg-opacity").data),
      if_neg (by decide : ¬ ("prompt-style").data = ("text-size").data),
      if_neg (by decide : ¬ ("prompt-style").data = ("text-color").data),
      if_neg (by decide : ¬ ("prompt-style").data = ("text-bold").data)]
  · intro c opt v1 vs h1 h2 h3 h4 h5
    simp only [handleShellCustomization, if_neg h1, if_neg h2, if_neg h3,
      if_neg h4, if_neg h5]
  · intro c x
    exact ⟨rfl, rfl⟩

/-- Witness for C9: out-of-range `shell bg-opacity 150` and non-boolean
`shell text-bold maybe` leave the defaults untouched; `shell text-size 14`
updates exactly the text size. -/
theorem shell_customization_validates_w :
    handleShellCustomization [("bg-opacity").data, ("150").data]
        defaultCustomization =
      (defaultCustomization,
       [("Invalid opacity value. Please enter a value between 0 and 100.").data]) ∧
    handleShellCustomization [("text-bold").data, ("maybe").data]
        defaultCustomization =
      (defaultCustomization,
       [("Invalid value for text-bold. Use true or false.").data]) ∧
    handleShellCustomization [("text-size").data, ("14").data]
        defaultCustomization =
      ({ defaultCustomization with textSize := 14 },
       [("Text size set to 14").data]) := by
  refine ⟨?_, ?_, ?_⟩
  · exact shell_customization_validates.2.1 defaultCustomization (("150").data) []
      (by intro v hv; simp only [joinSpace] at hv; rw [show v = 150 by
        have := hv; simp [atoi, parseDigits, parseDigitsAux, digitVal] at this
        omega]; decide)
  · exact shell_customization_validates.2.2.2.2.2.2.1 defaultCustomization
      (("maybe").data) [] (by decide) (by decide)
  · have h := shell_customization_validates.2.2.1 defaultCustomization
      (("14").data) [] 14 (by decide) (by decide)
    exact h.trans (by decide)

theorem handleCommandM_fst (rc : List Char → Option (List Char)) (fuel : Nat)
    (ex : List Char → List Char) (al : List Char → Option (List Char))
    (bi : List Char → Bool) (hist : List (List Char)) (raw : List Char) :
    (handleCommandM rc fuel ex al bi hist raw).1 =
      if trimChars raw = [] then hist else hist ++ [trimChars raw] := by
  by_cases h : trimChars raw = []
  · simp [handleCommandM, h]
  · simp only [handleCommandM, if_neg h]
    cases substituteCommandFuel rc fuel (trimChars raw) <;> rfl

/-- C8: history is append-only and records every non-empty submitted line
exactly once, as the trimmed pre-substitution text, regardless of outcome
(even when substitution never returns); an empty submission records
nothing; after any sequence of submissions the history is the prior history
plus the non-empty trimmed lines in submission order; the `history` builtin
prints one line per entry, 1-indexed; and an unknown command such as
`doesnotexist123` is recorded like any other entry while its execution
reports "command not found". -/
theorem history_append_only :
    (∀ (rc : List Char → Option (List Char)) (fuel : Nat)
       (ex : List Char → List Char) (al : List Char → Option (List Char))
       (bi : List Char → Bool) (hist : List (List Char)) (raw : List Char),
       trimChars raw ≠ [] →
       (handleCommandM rc fuel ex al bi hist raw).1 = hist ++ [trimChars raw]) ∧
    (∀ (rc : List Char → Option (List Char)) (fuel : Nat)
       (ex : List Char → List Char) (al : List Char → Option (List Char))
       (bi : List Char → Bool) (hist : List (List Char)) (raw : List Char),
       trimChars raw = [] →
       (handleCommandM rc fuel ex al bi hist raw).1 = hist) ∧
    (∀ (rc : List Char → Option (List Char)) (fuel : Nat)
       (ex : List Char → List Char) (al : List Char → Option (List Char))
       (bi : List Char → Bool) (hist : List (List Char))
       (raws : List (List Char)),
       List.foldl (fun h r => (handleCommandM rc fuel ex al bi h r).1) hist raws =
         hist ++ (raws.map trimChars).filter (fun l => !l.isEmpty)) ∧
    (∀ hist : List (List Char), (historyLines hist).length = hist.length) ∧
    (∀ (hist : List (List Char)) (i : Nat), i < hist.length →
       (historyLines hist).getD i [] =
         (Nat.repr (i + 1)).data ++ ' ' :: hist.getD i []) ∧
    (handleCommandM failRun 1 id alNone builtins [] (("doesnotexist123").data) =
       ([("doesnotexist123").data],
        some (.plain (("doesnotexist123").data) [])) ∧
     plainModeOutput scanNone [] (("doesnotexist123").data) 0 =
       [("doesnotexist123: command not found").data]) := by
  refine ⟨?_, ?_, ?_, ?_, ?_, ?_⟩
  · intro rc fuel ex al bi hist raw h
    rw [handleCommandM_fst, if_neg h]
  · intro rc fuel ex al bi hist raw h
    rw [handleCommandM_fst, if_pos h]
  · intro rc fuel ex al bi hist raws
    induction raws generalizing hist with
    | nil => simp
    | cons r rs ih =>
      rw [List.foldl_cons, handleCommandM_fst]
      by_cases h : trimChars r = []
      · rw [if_pos h, ih]
        simp [h]
      · have hne : (trimChars r).isEmpty = false := by simpa using h
        rw [if_neg h, ih]
        simp [hne, List.append_assoc]
  · intro hist
    simp [historyLines, List.enum_length]
  · intro hist i hi
    have h1 : i < (historyLines hist).length := by
      simpa [historyLines, List.enum_length] using hi
    have h2 : i < hist.enum.length := by simpa [List.enum_length] using hi
    rw [List.getD_eq_getElem?_getD, List.getElem?_eq_getElem h1,
      List.getD_eq_getElem?_getD, List.getElem?_eq_getElem hi]
    simp [historyLines, List.getElem_enum]
  · constructor
    · decide
    · decide

/-- Witness for C8: submitting ` ls ` appends the trimmed `ls` to an
existing one-entry history, and the second history line of `[ls, pwd]` is
rendered 1-indexed as `2 pwd`. -/
theorem history_append_only_w :
    (handleCommandM failRun 1 id alNone builtins [("pwd").data]
        ((" ls ").data)).1 = [("pwd").data, ("ls").data] ∧
    (historyLines [("ls").data, ("pwd").data]).getD 1 [] = ("2 pwd").data := by
  constructor
  · have h := history_append_only.1 failRun 1 id alNone builtins
      [("pwd").data] ((" ls ").data) (by decide)
    exact h.trans (by decide)
  · have h := history_append_only.2.2.2.2.1 [("ls").data, ("pwd").data] 1
      (by decide)
    exact h.trans (by decide)

theorem strIndex_isPrefixOf {pat s : List Char} {i : Nat}
    (h : strIndex pat s = some i) : pat.isPrefixOf (s.drop i) = true := by
  induction s generalizing i with
  | nil =>
    by_cases hp : pat.isPrefixOf [] = true
    · simp only [strIndex, if_pos hp] at h
      obtain rfl := Option.some.inj h
      simpa using hp
    · simp only [strIndex, if_neg hp] at h
      exact Option.noConfusion h
  | cons x tl ih =>
    by_cases hp : pat.isPrefixOf (x :: tl) = true
    · simp only [strIndex, if_pos hp] at h
      obtain rfl := Option.some.inj h
      simpa using hp
    · simp only [strIndex, if_neg hp] at h
      cases hstr : strIndex pat tl with
      | none => rw [hstr] at h; simp at h
      | some j =>
        rw [hstr] at h
        simp only [Option.map_some'] at h
        obtain rfl := Option.some.inj h
        simpa [List.drop_succ_cons] using ih hstr

theorem isPrefixOf_strIndex {pat s : List Char} {p : Nat}
    (h : pat.isPrefixOf (s.drop p) = true) :
    ∃ i, i ≤ p ∧ strIndex pat s = some i := by
  induction s generalizing p with
  | nil =>
    rw [List.drop_nil] at h
    exact ⟨0, Nat.zero_le p, by simp only [strIndex, if_pos h]⟩
  | cons x tl ih =>
    by_cases hp : pat.isPrefixOf (x :: tl) = true
    · exact ⟨0, Nat.zero_le p, by simp only [strIndex, if_pos hp]⟩
    · cases p with
      | zero => rw [List.drop_zero] at h; exact absurd h hp
      | succ q =>
        rw [List.drop_succ_cons] at h
        obtain ⟨j, hj, hstr⟩ := ih h
        refine ⟨j + 1, by omega, ?_⟩
        simp only [strIndex, if_neg hp, hstr]
        rfl

theorem mem_of_isPrefixOf_singleton {c : Char} {l : List Char}
    (h : [c].isPrefixOf l = true) : c ∈ l := by
  cases l with
  | nil => simp [List.isPrefixOf] at h
  | cons y t =>
    simp only [List.isPrefixOf, List.isPrefixOf_nil_left, Bool.and_true,
      beq_iff_eq] at h
    exact h ▸ List.mem_cons_self y t

theorem lt_length_of_isPrefixOf_drop {pat s : List Char} {i : Nat}
    (hne : pat ≠ []) (h : pat.isPrefixOf (s.drop i) = true) : i < s.length := by
  by_contra hge
  push_neg at hge
  rw [List.drop_eq_nil_of_le hge] at h
  cases pat with
  | nil => exact hne rfl
  | cons c cs => simp [List.isPrefixOf] at h

theorem drop_append_len {α : Type} (a b : List α) (k : Nat) :
    (a ++ b).drop (a.length + k) = b.drop k := by
  induction a with
  | nil => simp
  | cons x xs ih =>
    have harr : (x :: xs).length + k = (xs.length + k) + 1 := by
      simp [List.length_cons]; omega
    rw [List.cons_append, harr, List.drop_succ_cons, ih]

theorem substituteCommandStep_eq (runCmd : List Char → Option (List Char))
    (line : List Char) (start e : Nat)
    (h1 : strIndex subMarker line = some start)
    (h2 : strIndex [')'] (line.drop start) = some e) :
    substituteCommandStep runCmd line =
      match runCmd ((line.drop (start + 2)).take (start + e - (start + 2))) with
      | none => .next line
      | some out =>
        .next (line.take start ++ trimChars out ++ line.drop (start + e + 1)) := by
  simp only [substituteCommandStep, h1, h2]

theorem substStep_suffix (runCmd : List Char → Option (List Char))
    (line tail : List Char) (hp : ∃ p, line.drop p = tail)
    (hm : subMarker.isPrefixOf tail = true) (hnp : ')' ∉ tail) :
    substituteCommandStep runCmd line = .done line ∨
    ∃ line2, substituteCommandStep runCmd line = .next line2 ∧
      ∃ q, line2.drop q = tail := by
  obtain ⟨p, hpd⟩ := hp
  have hm' : subMarker.isPrefixOf (line.drop p) = true := by rw [hpd]; exact hm
  obtain ⟨start, hstart_le, hstart⟩ := isPrefixOf_strIndex hm'
  cases hE : strIndex [')'] (line.drop start) with
  | none =>
    left
    simp only [substituteCommandStep, hstart, hE]
  | some e =>
    right
    have hclose : [')'].isPrefixOf (line.drop (start + e)) = true := by
      have h0 := strIndex_isPrefixOf hE
      rwa [List.drop_drop] at h0
    have hstoplt : start + e < p := by
      by_contra hge
      push_neg at hge
      have h2 : tail.drop (start + e - p) = line.drop (start + e) := by
        rw [← hpd, List.drop_drop]
        congr 1
        omega
      have h3 : [')'].isPrefixOf (tail.drop (start + e - p)) = true := by
        rw [h2]; exact hclose
      exact hnp (List.drop_subset _ _ (mem_of_isPrefixOf_singleton h3))
    rw [substituteCommandStep_eq runCmd line start e hstart hE]
    cases hrun : runCmd ((line.drop (start + 2)).take (start + e - (start + 2))) with
    | none => exact ⟨line, rfl, ⟨p, hpd⟩⟩
    | some out =>
      refine ⟨_, rfl, ⟨start + (trimChars out).length + (p - (start + e + 1)), ?_⟩⟩
      have hlen : (line.take start).length = start := by
        rw [List.length_take]
        have hlt := lt_length_of_isPrefixOf_drop (by decide)
          (strIndex_isPrefixOf hstart)
        omega
      rw [show start + (trimChars out).length + (p - (start + e + 1)) =
          (line.take start).length +
            ((trimChars out).length + (p - (start + e + 1))) from by
        rw [hlen]; omega]
      rw [List.append_assoc, drop_append_len, drop_append_len, List.drop_drop,
        show (start + e + 1) + (p - (start + e + 1)) = p from by omega]
      exact hpd

theorem substFuel_suffix (runCmd : List Char → Option (List Char))
    (tail : List Char) (hm : subMarker.isPrefixOf tail = true)
    (hnp : ')' ∉ tail) :
    ∀ (fuel : Nat) (line res : List Char), (∃ p, line.drop p = tail) →
      substituteCommandFuel runCmd fuel line = some res →
      ∃ q, res.drop q = tail := by
  intro fuel
  induction fuel with
  | zero => intro line res _ h; simp [substituteCommandFuel] at h
  | succ n ih =>
    intro line res hsuf h
    rcases substStep_suffix runCmd line tail hsuf hm hnp with
      hdone | ⟨line2, hstep, hsuf2⟩
    · simp only [substituteCommandFuel, hdone] at h
      obtain rfl := Option.some.inj h
      exact hsuf
    · simp only [substituteCommandFuel, hstep] at h
      exact ih line2 res hsuf2 h

/-- C10: an unterminated substitution marker is passed through literally:
whenever the line has a `$(` at position `p` with no `)` anywhere at or
after it, any value `substituteCommand` returns still ends with the
unchanged text from `p` on (neither reported nor stripped); and when the
first `$(` of the line is the unterminated one, the loop breaks on its
first iteration and returns the entire line unchanged. -/
theorem substitute_unterminated_passthrough :
    (∀ (runCmd : List Char → Option (List Char)) (fuel : Nat)
       (line res tail : List Char) (p : Nat),
       line.drop p = tail → subMarker.isPrefixOf tail = true → ')' ∉ tail →
       substituteCommandFuel runCmd fuel line = some res →
       ∃ q, res.drop q = tail) ∧
    (∀ (runCmd : List Char → Option (List Char)) (fuel : Nat)
       (line : List Char) (p : Nat),
       strIndex subMarker line = some p →
       strIndex [')'] (line.drop p) = none →
       1 ≤ fuel →
       substituteCommandFuel runCmd fuel line = some line) := by
  constructor
  · intro runCmd fuel line res tail p hdrop hm hnp h
    exact substFuel_suffix runCmd tail hm hnp fuel line res ⟨p, hdrop⟩ h
  · intro runCmd fuel line p h1 h2 hf
    obtain ⟨n, rfl⟩ : ∃ n, fuel = n + 1 := ⟨fuel - 1, by omega⟩
    have hstep : substituteCommandStep runCmd line = .done line := by
      simp only [substituteCommandStep, h1, h2]
    simp only [substituteCommandFuel, hstep]

/-- Witness for C10: `echo $(ls` has its first `$(` at index 5 with no `)`
after it; one loop iteration returns the whole line unchanged, and the
returned line still ends with the literal `$(ls`. -/
theorem substitute_unterminated_passthrough_w :
    substituteCommandFuel failRun 1 (("echo $(ls").data) =
      some (("echo $(ls").data) ∧
    ∃ q, (("echo $(ls").data).drop q = ("$(ls").data := by
  have h2 := substitute_unterminated_passthrough.2 failRun 1
    (("echo $(ls").data) 5 (by decide) (by decide) (by decide)
  refine ⟨h2, ?_⟩
  exact substitute_unterminated_passthrough.1 failRun 1 (("echo $(ls").data)
    (("echo $(ls").data) (("$(ls").data) 5 (by decide) (by decide) (by decide) h2

theorem getLast?_eq_append {α : Type} {l : List α} {a : α}
    (h : l.getLast? = some a) : ∃ l2, l = l2 ++ [a] := by
  induction l with
  | nil => cases h
  | cons x xs ih =>
    cases xs with
    | nil =>
      simp only [List.getLast?_singleton, Option.some.injEq] at h
      exact ⟨[], by rw [h]; rfl⟩
    | cons y ys =>
      have h2 : (y :: ys).getLast? = some a := by
        rwa [List.getLast?_cons_cons] at h
      obtain ⟨l2, hl2⟩ := ih h2
      exact ⟨x :: l2, by rw [List.cons_append, ← hl2]⟩

theorem mem_cacheEntriesFor {ins : List CacheIns} {n : List Char} {t : Nat}
    {e : CacheIns} (h : e ∈ cacheEntriesFor ins n t) :
    e ∈ ins ∧ e.name = n ∧ e.time ≤ t := by
  obtain ⟨h1, h2⟩ := List.mem_filter.1 h
  simp only [Bool.and_eq_true, decide_eq_true_eq] at h2
  exact ⟨h1, h2.1, h2.2⟩

theorem cacheEntriesFor_stable {ins : List CacheIns} {n : List Char} {t : Nat}
    (hle : ∀ e ∈ ins, e.time ≤ t) {t2 : Nat} (h2 : t ≤ t2) :
    cacheEntriesFor ins n t2 = cacheEntriesFor ins n t := by
  refine List.filter_congr ?_
  intro e he
  have h3 : e.time ≤ t := hle e he
  simp [decide_eq_true_eq, h3, le_trans h3 h2]

theorem miss_all_expired {ins : List CacheIns} {n : List Char} {t : Nat}
    (hwf : cacheWF ins) (hle : ∀ e ∈ ins, e.time ≤ t)
    (hvis : visibleAt ins n t = none) :
    ∀ e2 ∈ cacheEntriesFor ins n t, e2.time + cacheTTL ≤ t := by
  intro e2 he2
  obtain ⟨elast, hL⟩ : ∃ a, (cacheEntriesFor ins n t).getLast? = some a := by
    cases hes : cacheEntriesFor ins n t with
    | nil => rw [hes] at he2; cases he2
    | cons x xs =>
      exact ⟨(x :: xs).getLast (by simp), List.getLast?_eq_getLast _ _⟩
  have hpw : List.Pairwise
      (fun e1 e2 => e1.name = e2.name → e1.time + cacheTTL ≤ e2.time)
      (cacheEntriesFor ins n t) := hwf.sublist (List.filter_sublist ins)
  obtain ⟨l2, hdecomp⟩ := getLast?_eq_append hL
  have hrel : ∀ x ∈ l2, x.name = elast.name → x.time + cacheTTL ≤ elast.time := by
    have hpw2 := hdecomp ▸ hpw
    exact fun x hx =>
      (List.pairwise_append.1 hpw2).2.2 x hx elast (List.mem_singleton.2 rfl)
  have hlast_mem : elast ∈ cacheEntriesFor ins n t := by
    rw [hdecomp]
    exact List.mem_append.2 (Or.inr (List.mem_singleton.2 rfl))
  have hlast_name : elast.name = n := (mem_cacheEntriesFor hlast_mem).2.1
  have hlast_t : elast.time ≤ t := hle elast (mem_cacheEntriesFor hlast_mem).1
  have hcond : ¬ ∀ eb ∈ cacheEntriesFor ins n t,
      t < eb.time + cacheTTL ∨ eb.time + cacheTTL ≤ elast.time := by
    intro hall
    simp only [visibleAt, hL, if_pos hall] at hvis
    exact Option.noConfusion hvis
  push_neg at hcond
  obtain ⟨eb, hb_mem, hb1, hb2⟩ := hcond
  have hb_exp : eb.time + cacheTTL ≤ t := by omega
  have hlast_exp : elast.time + cacheTTL ≤ t := by
    have hb_name : eb.name = n := (mem_cacheEntriesFor hb_mem).2.1
    rcases List.mem_append.1 (hdecomp ▸ hb_mem) with hb_l2 | hb_last
    · exact absurd (hrel eb hb_l2 (hb_name.trans hlast_name.symm)) (by omega)
    · obtain rfl := List.mem_singleton.1 hb_last
      exact hb_exp
  rcases List.mem_append.1 (hdecomp ▸ he2) with h2_l2 | h2_last
  · have h2_name : e2.name = n := (mem_cacheEntriesFor he2).2.1
    have := hrel e2 h2_l2 (h2_name.trans hlast_name.symm)
    omega
  · obtain rfl := List.mem_singleton.1 h2_last
    exact hlast_exp

theorem cacheEntriesFor_append_self {ins : List CacheIns} {n p : List Char}
    {t t2 : Nat} (ht : t ≤ t2) :
    cacheEntriesFor (ins ++ [⟨n, p, t⟩]) n t2 =
      cacheEntriesFor ins n t2 ++ [⟨n, p, t⟩] := by
  unfold cacheEntriesFor
  rw [List.filter_append]
  congr 1
  simp [ht]

/-- C4: a name resolved by the full search-path scan is inserted into the
path cache, a lookup for the same name strictly within the 5-minute TTL of
that insertion returns the identical path, the entry is absent from the
cache once the TTL has elapsed, and a cache miss always falls back to the
full search-path scan.  The hypotheses are the reachable cache state:
insertions lie in the past, any two insertions of one name are at least a
TTL apart (an insertion happens only on a miss), and the present lookup
missed. -/
theorem cache_ttl_roundtrip :
    ∀ (scan : List Char → Option (List Char)) (ins : List CacheIns)
      (n p : List Char) (t : Nat),
      cacheWF ins → (∀ e ∈ ins, e.time ≤ t) →
      visibleAt ins n t = none → scan n = some p →
      resolveCommand scan ins n t = (some p, ins ++ [⟨n, p, t⟩]) ∧
      (∀ t2, t ≤ t2 → t2 < t + cacheTTL →
        visibleAt (ins ++ [⟨n, p, t⟩]) n t2 = some p) ∧
      (∀ t2, t + cacheTTL ≤ t2 →
        visibleAt (ins ++ [⟨n, p, t⟩]) n t2 = none) ∧
      (∀ (scan2 : List Char → Option (List Char)) (ins2 : List CacheIns)
         (t2 : Nat), visibleAt ins2 n t2 = none →
        (resolveCommand scan2 ins2 n t2).1 = scan2 n) := by
  intro scan ins n p t hwf hle hvis hscan
  have hTTL : cacheTTL = 300 := rfl
  refine ⟨?_, ?_, ?_, ?_⟩
  · simp only [resolveCommand, hvis, hscan]
  · intro t2 ht2 ht2b
    have hE : cacheEntriesFor (ins ++ [⟨n, p, t⟩]) n t2 =
        cacheEntriesFor ins n t ++ [⟨n, p, t⟩] := by
      rw [cacheEntriesFor_append_self ht2, cacheEntriesFor_stable hle ht2]
    have hexp := miss_all_expired hwf hle hvis
    have hall : ∀ e2 ∈ cacheEntriesFor ins n t ++ [⟨n, p, t⟩],
        t2 < e2.time + cacheTTL ∨ e2.time + cacheTTL ≤ t := by
      intro e2 he2
      rcases List.mem_append.1 he2 with h2 | h2
      · exact Or.inr (hexp e2 h2)
      · obtain rfl := List.mem_singleton.1 h2
        exact Or.inl (by simpa using ht2b)
    simp only [visibleAt, hE, List.getLast?_concat, if_pos hall]
  · intro t2 ht2
    have ht2' : t ≤ t2 := by omega
    have hE : cacheEntriesFor (ins ++ [⟨n, p, t⟩]) n t2 =
        cacheEntriesFor ins n t ++ [⟨n, p, t⟩] := by
      rw [cacheEntriesFor_append_self ht2', cacheEntriesFor_stable hle ht2']
    have hnall : ¬ ∀ e2 ∈ cacheEntriesFor ins n t ++ [⟨n, p, t⟩],
        t2 < e2.time + cacheTTL ∨ e2.time + cacheTTL ≤ t := by
      intro hall
      have h3 : t2 < t + cacheTTL ∨ t + cacheTTL ≤ t :=
        hall ⟨n, p, t⟩ (List.mem_append.2 (Or.inr (List.mem_singleton.2 rfl)))
      omega
    simp only [visibleAt, hE, List.getLast?_concat, if_neg hnall]
  · intro scan2 ins2 t2 hvis2
    simp only [resolveCommand, hvis2]
    cases scan2 n <;> rfl

/-- A search-path scan resolving only `ls`, to `/bin/ls`. -/
def scanBinLs : List Char → Option (List Char) := fun s =>
  if s = ("ls").data then some (("/bin/ls").data) else none

/-- Witness for C4: on an empty cache at time 0, resolving `ls` scans,
returns `/bin/ls` and inserts it; a lookup at 299 s still hits with the
identical path; at 300 s (the 5-minute TTL) the entry is gone. -/
theorem cache_ttl_roundtrip_w :
    resolveCommand scanBinLs [] (("ls").data) 0 =
      (some (("/bin/ls").data), [⟨("ls").data, ("/bin/ls").data, 0⟩]) ∧
    visibleAt [⟨("ls").data, ("/bin/ls").data, 0⟩] (("ls").data) 299 =
      some (("/bin/ls").data) ∧
    visibleAt [⟨("ls").data, ("/bin/ls").data, 0⟩] (("ls").data) 300 = none := by
  have h := cache_ttl_roundtrip scanBinLs [] (("ls").data) (("/bin/ls").data) 0
    List.Pairwise.nil (by intro e he; cases he) (by decide) (by decide)
  exact ⟨h.1, h.2.1 299 (by decide) (by decide), h.2.2.1 300 (by decide)⟩

end Dyshell

